import Mathlib

/-!
Verification development for the `pybat` cathode module (`pybat/core.py`).

The embedding is shallow:

* A site species is an element symbol (`Elem`); `CATIONS` mirrors the module
  constant `CATIONS = (Element("Li"), Element("Na"), Element("Mg"))`.
* The ChemEnv `DetailedVoronoiContainer.neighbors(idx, dist, ang)` call is an
  external library collaborator; it is abstracted as an oracle
  `nbrs : Nat → List Nat` giving, for a site index, the ordered list of
  neighbor indices (`neighbor["index"]` values, duplicates possible when the
  same site is reached through different periodic images).  Likewise
  `self.sites[k].specie` is abstracted as `species : Nat → Elem`.
* Coordinates are exact rationals; the floating-point values produced by
  `numpy` are modelled as `Option ℝ`, where `none` stands for a non-finite
  IEEE result (NaN/Inf) as produced by division by zero;
  `np.linalg.norm` is `Real.sqrt` of the exact squared norm.
* Python exceptions are modelled with `Except`.
-/

/-- Element symbols.  The cathode code only distinguishes the cations
`Li`, `Na`, `Mg`, the bridging species `O`, and everything else. -/
inductive Elem where
  | Li : Elem
  | Na : Elem
  | Mg : Elem
  | O : Elem
  | other : String → Elem
deriving DecidableEq, Repr

/-- `CATIONS = (Element("Li"), Element("Na"), Element("Mg"))` from `core.py`. -/
def CATIONS : List Elem := [Elem.Li, Elem.Na, Elem.Mg]

/-- The oxygen-filtered Voronoi neighbor list of `pivot`: the list
`oxygen_neighbors_indices` built in `Cathode.find_oxygen_dimers`
(`neighbor["index"]` for the Voronoi neighbors whose species is `O`),
in neighbor order, duplicates kept. -/
def oxygenNeighbors (nbrs : Nat → List Nat) (species : Nat → Elem)
    (pivot : Nat) : List Nat :=
  (nbrs pivot).filter (fun k => decide (species k = Elem.O))

/-- `itertools.combinations(xs, 2)`: all positional pairs of `xs`, the first
component taken from an earlier position than the second, in the iteration
order used by Python. -/
def combinations2 {α : Type} : List α → List (α × α)
  | [] => []
  | x :: xs => (xs.map (fun y => (x, y))) ++ combinations2 xs

/-- `len(set(A).intersection(B))` for the two full (unfiltered) Voronoi
neighbor lists of sites `a` and `b`: the number of distinct shared
neighbor indices. -/
def sharedNeighborCount (nbrs : Nat → List Nat) (a b : Nat) : Nat :=
  ((nbrs a).toFinset ∩ (nbrs b).toFinset).card

/-- `Cathode.find_oxygen_dimers(site_index)`: filter the pivot's Voronoi
neighbors to oxygen; raise `ValueError` when at most one remains; otherwise
keep exactly the oxygen pairs whose two full neighbor lists share exactly
two distinct indices. -/
def findOxygenDimers (nbrs : Nat → List Nat) (species : Nat → Elem)
    (siteIndex : Nat) : Except String (List (Nat × Nat)) :=
  if (oxygenNeighbors nbrs species siteIndex).length ≤ 1 then
    Except.error "Provided site does not have two oxygen neighbours."
  else
    Except.ok ((combinations2 (oxygenNeighbors nbrs species siteIndex)).filter
      (fun p => decide (sharedNeighborCount nbrs p.1 p.2 = 2)))

/-- `Cathode.get_dimer_environment(dimer_indices)`:
`set(dimer_indices).union(oxygen_A_neighbors).union(oxygen_B_neighbors)`,
with the two neighbor lists unfiltered by species. -/
def getDimerEnvironment (nbrs : Nat → List Nat) (dimer : Nat × Nat) :
    Finset Nat :=
  ({dimer.1, dimer.2} : Finset Nat) ∪ (nbrs dimer.1).toFinset
    ∪ (nbrs dimer.2).toFinset

section CombinatoricsLemmas

variable {α : Type}

theorem combinations2_mem_of {xs : List α} {p : α × α}
    (hp : p ∈ combinations2 xs) : p.1 ∈ xs ∧ p.2 ∈ xs := by
  induction xs with
  | nil => simp [combinations2] at hp
  | cons x xs ih =>
    simp only [combinations2, List.mem_append, List.mem_map] at hp
    rcases hp with ⟨y, hy, rfl⟩ | hp
    · exact ⟨List.mem_cons_self x xs, List.mem_cons_of_mem x hy⟩
    · rcases ih hp with ⟨h1, h2⟩
      exact ⟨List.mem_cons_of_mem x h1, List.mem_cons_of_mem x h2⟩

theorem combinations2_pair_mem {xs : List α} {a b : α} (hne : a ≠ b)
    (ha : a ∈ xs) (hb : b ∈ xs) :
    (a, b) ∈ combinations2 xs ∨ (b, a) ∈ combinations2 xs := by
  induction xs with
  | nil => simp at ha
  | cons x xs ih =>
    by_cases hax : a = x
    · subst hax
      have hbxs : b ∈ xs := by
        rcases List.mem_cons.mp hb with h | h
        · exact absurd h.symm hne
        · exact h
      left
      simp only [combinations2, List.mem_append, List.mem_map]
      exact Or.inl ⟨b, hbxs, rfl⟩
    · by_cases hbx : b = x
      · subst hbx
        have haxs : a ∈ xs := by
          rcases List.mem_cons.mp ha with h | h
          · exact absurd h hax
          · exact h
        right
        simp only [combinations2, List.mem_append, List.mem_map]
        exact Or.inl ⟨a, haxs, rfl⟩
      · have haxs : a ∈ xs := by
          rcases List.mem_cons.mp ha with h | h
          · exact absurd h hax
          · exact h
        have hbxs : b ∈ xs := by
          rcases List.mem_cons.mp hb with h | h
          · exact absurd h hbx
          · exact h
        rcases ih haxs hbxs with h | h
        · left
          simp only [combinations2, List.mem_append]
          exact Or.inr h
        · right
          simp only [combinations2, List.mem_append]
          exact Or.inr h

theorem combinations2_ne_of_nodup {xs : List α} (hnd : xs.Nodup)
    {p : α × α} (hp : p ∈ combinations2 xs) : p.1 ≠ p.2 := by
  induction xs with
  | nil => simp [combinations2] at hp
  | cons x xs ih =>
    simp only [combinations2, List.mem_append, List.mem_map] at hp
    rcases List.nodup_cons.mp hnd with ⟨hx, hxs⟩
    rcases hp with ⟨y, hy, rfl⟩ | hp
    · intro h
      have hxy : x = y := h
      subst hxy
      exact hx hy
    · exact ih hxs hp

end CombinatoricsLemmas

/-- A 3-vector of exact rational coordinates. -/
structure QVec where
  x : ℚ
  y : ℚ
  z : ℚ
deriving DecidableEq, Repr

def QVec.add (u v : QVec) : QVec := ⟨u.x + v.x, u.y + v.y, u.z + v.z⟩

def QVec.sub (u v : QVec) : QVec := ⟨u.x - v.x, u.y - v.y, u.z - v.z⟩

def QVec.smul (q : ℚ) (v : QVec) : QVec := ⟨q * v.x, q * v.y, q * v.z⟩

/-- Squared Euclidean norm. -/
def QVec.normSq (v : QVec) : ℚ := v.x ^ 2 + v.y ^ 2 + v.z ^ 2

theorem QVec.normSq_nonneg (v : QVec) : 0 ≤ v.normSq := by
  have hx := sq_nonneg v.x
  have hy := sq_nonneg v.y
  have hz := sq_nonneg v.z
  simp only [QVec.normSq]
  linarith

/-- A periodic lattice: three rational basis vectors. -/
structure Lattice3 where
  a1 : QVec
  a2 : QVec
  a3 : QVec
deriving DecidableEq, Repr

/-- `lattice.get_cartesian_coords(frac)`: fractional to cartesian conversion. -/
def Lattice3.cart (L : Lattice3) (f : QVec) : QVec :=
  (QVec.smul f.x L.a1).add ((QVec.smul f.y L.a2).add (QVec.smul f.z L.a3))

/-- A periodic site: species, fractional coordinates, site properties
(property name to value). -/
structure PSite where
  species : Elem
  frac : QVec
  props : List (String × ℚ)
deriving DecidableEq, Repr

/-- The cathode structure: a lattice and its ordered list of sites. -/
structure CathodeStr where
  lattice : Lattice3
  sites : List PSite
deriving DecidableEq, Repr

/-- Python `list.remove(v)`: delete the first occurrence of `v`, or `none`
(`ValueError`) when `v` is not an element. -/
def listRemove {α : Type} [DecidableEq α] : List α → α → Option (List α)
  | [], _ => none
  | x :: xs, v => if x = v then some xs else (listRemove xs v).map (x :: ·)

theorem listRemove_eq_none_of_not_mem {α : Type} [DecidableEq α]
    {l : List α} {v : α} (h : v ∉ l) : listRemove l v = none := by
  induction l with
  | nil => rfl
  | cons x xs ih =>
    have hxv : ¬x = v := fun hx => h (hx ▸ List.mem_cons_self x xs)
    have hvxs : v ∉ xs := fun hv => h (List.mem_cons_of_mem x hv)
    simp [listRemove, hxv, ih hvxs]

/-- The Python exception kinds raised by the cation-tracking code. -/
inductive PyErr where
  /-- `IOError("Provided indices do not all correspond to a cation site!")` -/
  | notACation : PyErr
  /-- `Warning("Requested site not found in cation configuration.")` -/
  | notPresent : PyErr
  /-- `AttributeError`: attribute access on `None`
  (`self._cation_configuration` never initialized). -/
  | attributeError : PyErr
  /-- `ValueError` from `list.remove` on a missing element. -/
  | valueError : PyErr
deriving DecidableEq, Repr

/-- The `sites is not None` branch of `Cathode.remove_cations(sites)`:
for each requested site, raise `IOError` when its species is not a cation,
otherwise `self._cation_configuration.remove(site)`, re-raising the
`ValueError` of a missing site as a `Warning`.  The configuration is
`none` when `_cation_configuration` was never initialized (in that state
the attribute access itself raises). -/
def removeCations (cfg : Option (List PSite)) (sites : List PSite) :
    Except PyErr (Option (List PSite)) :=
  match sites with
  | [] => Except.ok cfg
  | s :: rest =>
    if s.species ∈ CATIONS then
      match cfg with
      | none => Except.error PyErr.attributeError
      | some l =>
        match listRemove l s with
        | some l2 => removeCations (some l2) rest
        | none => Except.error PyErr.notPresent
    else Except.error PyErr.notACation

/-- A Python value that can live in the `_cation_configuration` list or be
passed to `list.remove`: either a periodic site object or a list of integer
indices.  Values of different kinds are never equal (Python `==` between a
`PeriodicSite` and a `list` is false). -/
inductive PyVal where
  | site : PSite → PyVal
  | intList : List Nat → PyVal
deriving DecidableEq, Repr

/-- `true` exactly on site objects. -/
def PyVal.isSiteVal : PyVal → Bool
  | PyVal.site _ => true
  | PyVal.intList _ => false

/-- `Cathode.remove_dimer_cations(dimer_indices)`: collect the cation site
indices of the dimer environment into the list `remove_indices`, then call
`self._cation_configuration.remove(remove_indices)` — passing the whole
list as a single element.  When the private attribute is still `None`
(never initialized through the property) the attribute access raises;
otherwise `list.remove` raises `ValueError` unless the list-of-indices
value occurs as an element of the configuration. -/
def removeDimerCations (nbrs : Nat → List Nat) (species : Nat → Elem)
    (numSites : Nat) (cfg : Option (List PyVal)) (dimer : Nat × Nat) :
    Except PyErr (List PyVal) :=
  let env := getDimerEnvironment nbrs dimer
  let removeIndices := (List.range numSites).filter
    (fun i => decide (i ∈ env) && decide (species i ∈ CATIONS))
  match cfg with
  | none => Except.error PyErr.attributeError
  | some l =>
    match listRemove l (PyVal.intList removeIndices) with
    | some l2 => Except.ok l2
    | none => Except.error PyErr.valueError

/-- The fixed enumeration of the 27 candidate periodic-image translations
`{-1, 0, 1}³`. -/
def jumps : List (ℤ × ℤ × ℤ) :=
  ([-1, 0, 1] : List ℤ).flatMap (fun i =>
    ([-1, 0, 1] : List ℤ).flatMap (fun j =>
      ([-1, 0, 1] : List ℤ).map (fun k => (i, j, k))))

def jumpVec (jm : ℤ × ℤ × ℤ) : QVec := ⟨(jm.1 : ℚ), (jm.2.1 : ℚ), (jm.2.2 : ℚ)⟩

/-- One candidate of the minimum-image search: the squared cartesian
distance from `fa` to the image `fb + jm`, paired with the translation. -/
def distCand (L : Lattice3) (fa fb : QVec) (jm : ℤ × ℤ × ℤ) :
    ℚ × (ℤ × ℤ × ℤ) :=
  (((L.cart (fb.add (jumpVec jm))).sub (L.cart fa)).normSq, jm)

/-- Scan of the candidate list keeping a strictly smaller squared distance
(so ties keep the first-encountered candidate). -/
def minCand : List (ℚ × (ℤ × ℤ × ℤ)) → ℚ × (ℤ × ℤ × ℤ) → ℚ × (ℤ × ℤ × ℤ)
  | [], best => best
  | c :: rest, best => minCand rest (if c.1 < best.1 then c else best)

/-- Modelled from the spec: `pymatgen`'s `Site.distance_and_image` — an
external library routine, not part of this repository's sources — which
§4.1 of the spec describes as evaluating the 27 translations `{-1,0,1}³`
of the fractional difference and selecting the one of minimal cartesian
norm, ties broken by the first-encountered candidate of a fixed
enumeration.  We return the squared distance together with the chosen
integer image; the library's distance is its square root, taken at the
call sites below. -/
def distSqAndImage (L : Lattice3) (fa fb : QVec) : ℚ × (ℤ × ℤ × ℤ) :=
  minCand (jumps.map (distCand L fa fb)) (distCand L fa fb (0, 0, 0))

theorem minCand_eq_or_mem (l : List (ℚ × (ℤ × ℤ × ℤ)))
    (best : ℚ × (ℤ × ℤ × ℤ)) : minCand l best = best ∨ minCand l best ∈ l := by
  induction l generalizing best with
  | nil => exact Or.inl rfl
  | cons c rest ih =>
    rcases ih (if c.1 < best.1 then c else best) with h | h
    · by_cases hc : c.1 < best.1
      · right
        rw [minCand, h, if_pos hc]
        exact List.mem_cons_self c rest
      · left
        rw [minCand, h, if_neg hc]
    · right
      rw [minCand]
      exact List.mem_cons_of_mem c h

theorem distSqAndImage_exists_jump (L : Lattice3) (fa fb : QVec) :
    ∃ jm, distSqAndImage L fa fb = distCand L fa fb jm := by
  rcases minCand_eq_or_mem (jumps.map (distCand L fa fb))
      (distCand L fa fb (0, 0, 0)) with h | h
  · exact ⟨(0, 0, 0), h⟩
  · rcases List.mem_map.mp h with ⟨jm, _, hjm⟩
    exact ⟨jm, hjm.symm⟩

/-- A floating-point scalar: `none` models a non-finite IEEE value
(NaN or ±Inf), as produced by dividing by zero; every arithmetic
operation on a non-finite value is again non-finite. -/
abbrev RV := Option ℝ

def rvAdd : RV → RV → RV
  | some a, some b => some (a + b)
  | _, _ => none

def rvSub : RV → RV → RV
  | some a, some b => some (a - b)
  | _, _ => none

def rvMul : RV → RV → RV
  | some a, some b => some (a * b)
  | _, _ => none

noncomputable def rvDiv : RV → RV → RV
  | some a, some b => if b = 0 then none else some (a / b)
  | _, _ => none

/-- A floating-point 3-vector. -/
structure RVec where
  x : RV
  y : RV
  z : RV

def rvecAdd (u v : RVec) : RVec := ⟨rvAdd u.x v.x, rvAdd u.y v.y, rvAdd u.z v.z⟩

def rvecSub (u v : RVec) : RVec := ⟨rvSub u.x v.x, rvSub u.y v.y, rvSub u.z v.z⟩

def rvecNormSq (v : RVec) : RV :=
  rvAdd (rvMul v.x v.x) (rvAdd (rvMul v.y v.y) (rvMul v.z v.z))

/-- Exact rational coordinates viewed as (finite) floats. -/
def qv2r (v : QVec) : RVec :=
  ⟨some ((v.x : ℝ)), some ((v.y : ℝ)), some ((v.z : ℝ))⟩

/-- A site after `Structure.replace`: species, cartesian coordinates as
floats, and properties. -/
structure RSite where
  species : Elem
  cart : RVec
  props : List (String × ℚ)

/-- `(original_distance, closest_image_B) = site_A.distance_and_image(site_B)`:
the squared minimum-image distance of the pair. -/
def d2Of (c : CathodeStr) (A B : PSite) : ℚ :=
  (distSqAndImage c.lattice A.frac B.frac).1

/-- The integer image `closest_image_B` chosen by the minimum-image search. -/
def jumpOf (c : CathodeStr) (A B : PSite) : ℤ × ℤ × ℤ :=
  (distSqAndImage c.lattice A.frac B.frac).2

/-- `image_cart_coords = self.lattice.get_cartesian_coords(site_B.frac_coords
+ closest_image_B)`. -/
def imageCartOf (c : CathodeStr) (A B : PSite) : QVec :=
  c.lattice.cart (B.frac.add (jumpVec (jumpOf c A B)))

/-- `connection_vector = image_cart_coords - site_A.coords`. -/
def connOf (c : CathodeStr) (A B : PSite) : QVec :=
  (imageCartOf c A B).sub (c.lattice.cart A.frac)

/-- `np.linalg.norm(connection_vector)`. -/
noncomputable def normOf (c : CathodeStr) (A B : PSite) : ℝ :=
  Real.sqrt (((connOf c A B).normSq : ℝ))

/-- `original_distance` as a float: the square root of the minimum-image
squared distance. -/
noncomputable def origDistOf (c : CathodeStr) (A B : PSite) : ℝ :=
  Real.sqrt ((d2Of c A B : ℝ))

/-- `connection_vector /= np.linalg.norm(connection_vector)`: the unit
vector, whose components are NaN when the norm is zero. -/
noncomputable def unitVecOf (c : CathodeStr) (A B : PSite) : RVec :=
  ⟨rvDiv (some ((connOf c A B).x : ℝ)) (some (normOf c A B)),
   rvDiv (some ((connOf c A B).y : ℝ)) (some (normOf c A B)),
   rvDiv (some ((connOf c A B).z : ℝ)) (some (normOf c A B))⟩

/-- `site_move_distance = (original_distance - distance) / 2`. -/
noncomputable def moveDistOf (c : CathodeStr) (A B : PSite) (target : ℝ) : ℝ :=
  (origDistOf c A B - target) / 2

/-- `new_site_A_coords = site_A.coords + site_move_distance *
connection_vector`. -/
noncomputable def newACart (c : CathodeStr) (A B : PSite) (target : ℝ) : RVec :=
  ⟨rvAdd (some (((c.lattice.cart A.frac).x : ℝ)))
     (rvMul (some (moveDistOf c A B target)) (unitVecOf c A B).x),
   rvAdd (some (((c.lattice.cart A.frac).y : ℝ)))
     (rvMul (some (moveDistOf c A B target)) (unitVecOf c A B).y),
   rvAdd (some (((c.lattice.cart A.frac).z : ℝ)))
     (rvMul (some (moveDistOf c A B target)) (unitVecOf c A B).z)⟩

/-- `new_site_B_coords = site_B.coords - site_move_distance *
connection_vector`. -/
noncomputable def newBCart (c : CathodeStr) (A B : PSite) (target : ℝ) : RVec :=
  ⟨rvSub (some (((c.lattice.cart B.frac).x : ℝ)))
     (rvMul (some (moveDistOf c A B target)) (unitVecOf c A B).x),
   rvSub (some (((c.lattice.cart B.frac).y : ℝ)))
     (rvMul (some (moveDistOf c A B target)) (unitVecOf c A B).y),
   rvSub (some (((c.lattice.cart B.frac).z : ℝ)))
     (rvMul (some (moveDistOf c A B target)) (unitVecOf c A B).z)⟩

/-- The structure's sites before the two `replace` calls, with their exact
cartesian coordinates viewed as floats. -/
def origSiteList (c : CathodeStr) : List RSite :=
  c.sites.map (fun s => ⟨s.species, qv2r (c.lattice.cart s.frac), s.props⟩)

/-- The two `self.replace(...)` calls of `change_site_distance`: site `i`
replaced first, then site `j`, each keeping its own species and properties
and receiving the new cartesian coordinates. -/
noncomputable def changeSiteDistanceCore (c : CathodeStr) (A B : PSite)
    (i j : Nat) (target : ℝ) : List RSite :=
  ((origSiteList c).set i ⟨A.species, newACart c A B target, A.props⟩).set j
    ⟨B.species, newBCart c A B target, B.props⟩

/-- `Cathode.change_site_distance(site_indices, distance)`: look up the two
sites, compute the minimum-image connection vector, normalize it, move both
sites by `(original_distance - distance) / 2` along it (A towards +, B
towards -), and write both back through `replace`.  `none` models the
`IndexError` of an out-of-bounds site index. -/
noncomputable def changeSiteDistance (c : CathodeStr) (i j : Nat)
    (target : ℝ) : Option (List RSite) :=
  match c.sites.get? i, c.sites.get? j with
  | some A, some B => some (changeSiteDistanceCore c A B i j target)
  | _, _ => none

theorem d2Of_eq_normSq_conn (c : CathodeStr) (A B : PSite) :
    d2Of c A B = (connOf c A B).normSq := by
  rcases distSqAndImage_exists_jump c.lattice A.frac B.frac with ⟨jm, h⟩
  have h1 : d2Of c A B = (distCand c.lattice A.frac B.frac jm).1 := by
    rw [d2Of, h]
  have h2 : jumpOf c A B = jm := by
    rw [jumpOf, h]
    rfl
  rw [h1, connOf, imageCartOf, h2]
  rfl

theorem sharedNeighborCount_comm (nbrs : Nat → List Nat) (a b : Nat) :
    sharedNeighborCount nbrs a b = sharedNeighborCount nbrs b a := by
  unfold sharedNeighborCount
  rw [Finset.inter_comm]

theorem list_get?_set_self {α : Type} (l : List α) (i : Nat) (a : α)
    (h : i < l.length) : (l.set i a).get? i = some a := by
  induction l generalizing i with
  | nil => simp at h
  | cons x xs ih =>
    cases i with
    | zero => rfl
    | succ n =>
      simp only [List.set, List.get?]
      exact ih n (by simpa using h)

theorem list_get?_set_other {α : Type} (l : List α) (i j : Nat) (a : α)
    (h : i ≠ j) : (l.set i a).get? j = l.get? j := by
  induction l generalizing i j with
  | nil => simp
  | cons x xs ih =>
    cases i with
    | zero =>
      cases j with
      | zero => exact absurd rfl h
      | succ m => rfl
    | succ n =>
      cases j with
      | zero => rfl
      | succ m =>
        simp only [List.set, List.get?]
        exact ih n m (fun hnm => h (by rw [hnm]))

/-- A four-site fixture with one pivot (index 0) having the two oxygen
neighbors 1 and 2, which share exactly the two neighbors 3 and 4. -/
def exNbrsA : Nat → List Nat
  | 0 => [1, 2]
  | 1 => [3, 4]
  | 2 => [3, 4]
  | _ => []

def exSpeciesA : Nat → Elem
  | 1 => Elem.O
  | 2 => Elem.O
  | _ => Elem.other "Mn"

/-- A fixture whose pivot (index 0) sees the same oxygen site 1 twice
(two periodic images); site 1 itself has the two distinct neighbors
0 and 2. -/
def exNbrsDup : Nat → List Nat
  | 0 => [1, 1]
  | 1 => [0, 2]
  | _ => []

def exSpeciesDup : Nat → Elem
  | 1 => Elem.O
  | _ => Elem.other "Mn"

/-- C1: whenever `find_oxygen_dimers` returns a list of pairs, every
returned pair consists of oxygen neighbors of the pivot whose full
Voronoi-neighbor index sets share exactly two members, and conversely every
unordered pair of distinct oxygen neighbors of the pivot with exactly two
shared neighbors is returned (in one of its two orientations). -/
theorem find_oxygen_dimers_shared_iff (nbrs : Nat → List Nat)
    (species : Nat → Elem) (pivot : Nat) (l : List (Nat × Nat))
    (h : findOxygenDimers nbrs species pivot = Except.ok l) :
    (∀ p ∈ l, p.1 ∈ oxygenNeighbors nbrs species pivot ∧
      p.2 ∈ oxygenNeighbors nbrs species pivot ∧
      sharedNeighborCount nbrs p.1 p.2 = 2) ∧
    (∀ a b : Nat, a ≠ b → a ∈ oxygenNeighbors nbrs species pivot →
      b ∈ oxygenNeighbors nbrs species pivot →
      sharedNeighborCount nbrs a b = 2 → (a, b) ∈ l ∨ (b, a) ∈ l) := by
  unfold findOxygenDimers at h
  by_cases hlen : (oxygenNeighbors nbrs species pivot).length ≤ 1
  · rw [if_pos hlen] at h
    cases h
  · rw [if_neg hlen] at h
    injection h with h
    subst h
    constructor
    · intro p hp
      rcases List.mem_filter.mp hp with ⟨hmem, hpred⟩
      rcases combinations2_mem_of hmem with ⟨h1, h2⟩
      exact ⟨h1, h2, of_decide_eq_true hpred⟩
    · intro a b hne ha hb hcount
      rcases combinations2_pair_mem hne ha hb with hc | hc
      · left
        exact List.mem_filter.mpr ⟨hc, decide_eq_true hcount⟩
      · right
        refine List.mem_filter.mpr ⟨hc, decide_eq_true ?_⟩
        rw [sharedNeighborCount_comm]
        exact hcount

/-- Witness for C1 on the concrete fixture `exNbrsA`. -/
theorem find_oxygen_dimers_shared_iff_witness :
    (∀ p ∈ [((1 : Nat), (2 : Nat))], p.1 ∈ oxygenNeighbors exNbrsA exSpeciesA 0 ∧
      p.2 ∈ oxygenNeighbors exNbrsA exSpeciesA 0 ∧
      sharedNeighborCount exNbrsA p.1 p.2 = 2) ∧
    (∀ a b : Nat, a ≠ b → a ∈ oxygenNeighbors exNbrsA exSpeciesA 0 →
      b ∈ oxygenNeighbors exNbrsA exSpeciesA 0 →
      sharedNeighborCount exNbrsA a b = 2 →
      (a, b) ∈ [((1 : Nat), (2 : Nat))] ∨ (b, a) ∈ [((1 : Nat), (2 : Nat))]) :=
  find_oxygen_dimers_shared_iff exNbrsA exSpeciesA 0 [(1, 2)] rfl

/-- C5: the dimer environment is exactly the union of the dimer pair and
the unfiltered Voronoi-neighbor index sets of its two members. -/
theorem get_dimer_environment_mem (nbrs : Nat → List Nat) (a b x : Nat) :
    x ∈ getDimerEnvironment nbrs (a, b) ↔
      x = a ∨ x = b ∨ x ∈ nbrs a ∨ x ∈ nbrs b := by
  simp only [getDimerEnvironment, Finset.mem_union, Finset.mem_insert,
    Finset.mem_singleton, List.mem_toFinset]
  tauto

/-- C6: `find_oxygen_dimers` fails (raising `ValueError`) exactly when the
pivot has fewer than two oxygen entries in its Voronoi neighbor list. -/
theorem find_oxygen_dimers_insufficient (nbrs : Nat → List Nat)
    (species : Nat → Elem) (i : Nat) :
    (∃ e, findOxygenDimers nbrs species i = Except.error e) ↔
      (oxygenNeighbors nbrs species i).length < 2 := by
  unfold findOxygenDimers
  by_cases h : (oxygenNeighbors nbrs species i).length ≤ 1
  · rw [if_pos h]
    constructor
    · intro _
      omega
    · intro _
      exact ⟨_, rfl⟩
  · rw [if_neg h]
    constructor
    · intro ⟨e, he⟩
      cases he
    · intro hlt
      omega

/-- C8 amended: when the pivot's oxygen-neighbor list has no repeated
indices, no returned pair has equal components. -/
theorem find_oxygen_dimers_ne_of_nodup (nbrs : Nat → List Nat)
    (species : Nat → Elem) (pivot : Nat) (l : List (Nat × Nat))
    (hnd : (oxygenNeighbors nbrs species pivot).Nodup)
    (h : findOxygenDimers nbrs species pivot = Except.ok l) :
    ∀ p ∈ l, p.1 ≠ p.2 := by
  unfold findOxygenDimers at h
  by_cases hlen : (oxygenNeighbors nbrs species pivot).length ≤ 1
  · rw [if_pos hlen] at h
    cases h
  · rw [if_neg hlen] at h
    injection h with h
    subst h
    intro p hp
    exact combinations2_ne_of_nodup hnd (List.mem_filter.mp hp).1

/-- Witness for the amended C8 on the duplicate-free fixture `exNbrsA`. -/
theorem find_oxygen_dimers_ne_of_nodup_witness :
    ((1 : Nat), (2 : Nat)).1 ≠ ((1 : Nat), (2 : Nat)).2 :=
  find_oxygen_dimers_ne_of_nodup exNbrsA exSpeciesA 0 [(1, 2)]
    (by decide) rfl (1, 2) (List.mem_singleton.mpr rfl)

/-- Counterexample to C8 as stated: with the same oxygen site reached twice
through different periodic images, `find_oxygen_dimers` returns the
self-pair `(1, 1)`. -/
theorem find_oxygen_dimers_self_pair :
    findOxygenDimers exNbrsDup exSpeciesDup 0 = Except.ok [(1, 1)] := rfl

def liSite : PSite := ⟨Elem.Li, ⟨0, 0, 0⟩, []⟩

def naSite : PSite := ⟨Elem.Na, ⟨1/2, 0, 0⟩, []⟩

def oSite : PSite := ⟨Elem.O, ⟨0, 0, 0⟩, []⟩

/-- Counterexample to C4 as stated: removing a cation site that is absent
from the cation configuration does not get logged and ignored — the call
fails, raising `Warning` to the caller. -/
theorem remove_cations_absent_error :
    removeCations (some []) [liSite] = Except.error PyErr.notPresent := rfl

/-- C4 amended: when a requested site is a cation but absent from the
cation configuration, `remove_cations` raises a `Warning` (fatal to the
call, aborting the remaining removals) instead of logging and ignoring
the condition. -/
theorem remove_cations_absent_raises (cfg : List PSite) (s : PSite)
    (rest : List PSite) (hcat : s.species ∈ CATIONS) (habs : s ∉ cfg) :
    removeCations (some cfg) (s :: rest) = Except.error PyErr.notPresent := by
  simp only [removeCations, if_pos hcat, listRemove_eq_none_of_not_mem habs]

/-- Witness for the amended C4. -/
theorem remove_cations_absent_raises_witness :
    removeCations (some []) [naSite] = Except.error PyErr.notPresent :=
  remove_cations_absent_raises [] naSite [] (by decide) (by decide)

/-- C7: `remove_cations` succeeds only when every requested site is a
cation, and a request headed by a non-cation site fails with the
`NotACation` error (`IOError`) regardless of the tracked configuration. -/
theorem remove_cations_noncation_check :
    (∀ (cfg : Option (List PSite)) (sites : List PSite)
        (res : Option (List PSite)),
        removeCations cfg sites = Except.ok res →
        ∀ s ∈ sites, s.species ∈ CATIONS) ∧
    (∀ (cfg : Option (List PSite)) (s : PSite) (rest : List PSite),
        s.species ∉ CATIONS →
        removeCations cfg (s :: rest) = Except.error PyErr.notACation) := by
  constructor
  · intro cfg sites
    induction sites generalizing cfg with
    | nil =>
      intro res _ s hs
      simp at hs
    | cons t rest ih =>
      intro res h s hs
      by_cases hc : t.species ∈ CATIONS
      · simp only [removeCations, if_pos hc] at h
        rcases List.mem_cons.mp hs with hst | hs2
        · rw [hst]
          exact hc
        · cases cfg with
          | none => cases h
          | some l =>
            simp only [] at h
            cases hlr : listRemove l t with
            | some l2 =>
              rw [hlr] at h
              exact ih (some l2) res h s hs2
            | none =>
              rw [hlr] at h
              cases h
      · simp only [removeCations, if_neg hc] at h
        cases h
  · intro cfg s rest h
    simp only [removeCations, if_neg h]

/-- Witness for C7: a request naming an oxygen site fails with
`NotACation`. -/
theorem remove_cations_noncation_check_witness :
    removeCations (some []) [oSite] = Except.error PyErr.notACation :=
  remove_cations_noncation_check.2 (some []) oSite [] (by decide)

/-- C10: with the cation configuration either never initialized (`none`)
or a list of site objects — the only states the class ever produces —
`remove_dimer_cations` always raises: an `AttributeError` on `none`,
otherwise the `ValueError` of `list.remove`, because the single element it
tries to remove is the whole list of collected integer indices, which is
never equal to a site object. -/
theorem remove_dimer_cations_always_errors (nbrs : Nat → List Nat)
    (species : Nat → Elem) (numSites : Nat) (cfg : Option (List PyVal))
    (dimer : Nat × Nat)
    (hsites : (cfg.getD []).all PyVal.isSiteVal = true) :
    ∃ e, removeDimerCations nbrs species numSites cfg dimer =
      Except.error e := by
  cases cfg with
  | none => exact ⟨PyErr.attributeError, rfl⟩
  | some l =>
    have hnotmem : PyVal.intList ((List.range numSites).filter
        (fun i => decide (i ∈ getDimerEnvironment nbrs dimer) &&
          decide (species i ∈ CATIONS))) ∉ l := by
      intro hmem
      have hall := List.all_eq_true.mp hsites _ hmem
      simp [PyVal.isSiteVal] at hall
    refine ⟨PyErr.valueError, ?_⟩
    simp only [removeDimerCations, listRemove_eq_none_of_not_mem hnotmem]

/-- Witness for C10 on a one-element cation configuration. -/
theorem remove_dimer_cations_always_errors_witness :
    ∃ e, removeDimerCations (fun _ => []) (fun _ => Elem.O) 2
      (some [PyVal.site liSite]) (0, 1) = Except.error e :=
  remove_dimer_cations_always_errors (fun _ => []) (fun _ => Elem.O) 2
    (some [PyVal.site liSite]) (0, 1) (by decide)

theorem rvDiv_some_of_ne (a b : ℝ) (h : b ≠ 0) :
    rvDiv (some a) (some b) = some (a / b) := by
  simp [rvDiv, h]

theorem rvDiv_some_zero (a : ℝ) : rvDiv (some a) (some 0) = none := by
  simp [rvDiv]

theorem normOf_pos {c : CathodeStr} {A B : PSite} (hnz : d2Of c A B ≠ 0) :
    0 < normOf c A B := by
  have hq : (connOf c A B).normSq ≠ 0 := by
    rw [← d2Of_eq_normSq_conn]
    exact hnz
  have h0 : 0 ≤ (connOf c A B).normSq := QVec.normSq_nonneg _
  have hpos : 0 < (connOf c A B).normSq := lt_of_le_of_ne h0 (Ne.symm hq)
  have hposR : (0 : ℝ) < ((connOf c A B).normSq : ℝ) := by exact_mod_cast hpos
  exact Real.sqrt_pos.mpr hposR

theorem origDistOf_eq_normOf (c : CathodeStr) (A B : PSite) :
    origDistOf c A B = normOf c A B := by
  rw [origDistOf, d2Of_eq_normSq_conn]
  rfl

/-- The unit cubic lattice. -/
def unitLat : Lattice3 := ⟨⟨1, 0, 0⟩, ⟨0, 1, 0⟩, ⟨0, 0, 1⟩⟩

/-- Two coincident oxygen sites at the origin of the unit cubic cell. -/
def coincEx : CathodeStr := ⟨unitLat, [oSite, oSite]⟩

theorem coincEx_d2 : distSqAndImage unitLat ⟨0, 0, 0⟩ ⟨0, 0, 0⟩ = (0, (0, 0, 0)) := by
  norm_num [distSqAndImage, jumps, distCand, minCand, Lattice3.cart, QVec.add,
    QVec.sub, QVec.smul, QVec.normSq, jumpVec, unitLat]

theorem coincEx_conn : connOf coincEx oSite oSite = ⟨0, 0, 0⟩ := by
  have hlat : coincEx.lattice = unitLat := rfl
  have hfrac : oSite.frac = (⟨0, 0, 0⟩ : QVec) := rfl
  simp only [connOf, imageCartOf, jumpOf]
  rw [hlat, hfrac, coincEx_d2]
  norm_num [jumpVec, Lattice3.cart, QVec.add, QVec.sub, QVec.smul, unitLat]

theorem coincEx_norm : normOf coincEx oSite oSite = 0 := by
  rw [normOf, coincEx_conn]
  norm_num [QVec.normSq]

theorem coincEx_unitVec : unitVecOf coincEx oSite oSite = ⟨none, none, none⟩ := by
  rw [unitVecOf, coincEx_norm, coincEx_conn]
  simp [rvDiv]

/-- On the coincident fixture the division by the zero norm poisons every
coordinate: for any requested distance, both written sites carry only
non-finite (NaN) coordinates, and no error is raised. -/
theorem coincEx_result (t : ℝ) :
    changeSiteDistance coincEx 0 1 t =
      some [⟨Elem.O, ⟨none, none, none⟩, []⟩,
            ⟨Elem.O, ⟨none, none, none⟩, []⟩] := by
  have hA : newACart coincEx oSite oSite t = ⟨none, none, none⟩ := by
    rw [newACart, coincEx_unitVec]
    simp [rvMul, rvAdd]
  have hB : newBCart coincEx oSite oSite t = ⟨none, none, none⟩ := by
    rw [newBCart, coincEx_unitVec]
    simp [rvMul, rvSub]
  show (match (coincEx.sites.get? 0), (coincEx.sites.get? 1) with
    | some A, some B => some (changeSiteDistanceCore coincEx A B 0 1 t)
    | _, _ => none) = _
  have h0 : coincEx.sites.get? 0 = some oSite := rfl
  have h1 : coincEx.sites.get? 1 = some oSite := rfl
  rw [h0, h1]
  simp only [changeSiteDistanceCore, origSiteList, hA, hB]
  rfl

/-- C2 failing behavior: on two coincident sites, `change_site_distance`
does not fail — it returns normally, having divided by the zero norm and
written non-finite (NaN) coordinates into both sites. -/
theorem change_site_distance_coincident_nan :
    changeSiteDistance coincEx 0 1 2 =
      some [⟨Elem.O, ⟨none, none, none⟩, []⟩,
            ⟨Elem.O, ⟨none, none, none⟩, []⟩] :=
  coincEx_result 2

/-- Counterexample to C9 as stated: for the coincident pair the current
minimum-image distance is `0`, yet requesting `target_distance = 0` does
not leave the coordinates unchanged — both sites end with non-finite (NaN)
coordinates instead of their original finite ones. -/
theorem change_site_distance_identity_coincident_fails :
    (changeSiteDistance coincEx 0 1 0 =
      some [⟨Elem.O, ⟨none, none, none⟩, []⟩,
            ⟨Elem.O, ⟨none, none, none⟩, []⟩]) ∧
    (⟨none, none, none⟩ : RVec) ≠ qv2r (coincEx.lattice.cart oSite.frac) := by
  refine ⟨coincEx_result 0, ?_⟩
  intro h
  simp [qv2r] at h

theorem unitVecOf_x {c : CathodeStr} {A B : PSite} (h : normOf c A B ≠ 0) :
    (unitVecOf c A B).x = some (((connOf c A B).x : ℝ) / normOf c A B) :=
  rvDiv_some_of_ne _ _ h

theorem unitVecOf_y {c : CathodeStr} {A B : PSite} (h : normOf c A B ≠ 0) :
    (unitVecOf c A B).y = some (((connOf c A B).y : ℝ) / normOf c A B) :=
  rvDiv_some_of_ne _ _ h

theorem unitVecOf_z {c : CathodeStr} {A B : PSite} (h : normOf c A B ≠ 0) :
    (unitVecOf c A B).z = some (((connOf c A B).z : ℝ) / normOf c A B) :=
  rvDiv_some_of_ne _ _ h

theorem normOf_sq {c : CathodeStr} {A B : PSite} :
    normOf c A B ^ 2 = ((connOf c A B).normSq : ℝ) := by
  rw [normOf]
  exact Real.sq_sqrt (by exact_mod_cast QVec.normSq_nonneg (connOf c A B))

theorem sep_scalar (cx cy cz t σ : ℝ) (hσ : σ ≠ 0)
    (hσ2 : σ ^ 2 = cx ^ 2 + cy ^ 2 + cz ^ 2) :
    (cx - 2 * ((σ - t) / 2) * (cx / σ)) ^ 2 +
      ((cy - 2 * ((σ - t) / 2) * (cy / σ)) ^ 2 +
        (cz - 2 * ((σ - t) / 2) * (cz / σ)) ^ 2) = t ^ 2 := by
  have h1 : cx - 2 * ((σ - t) / 2) * (cx / σ) = cx * t / σ := by
    field_simp
    ring
  have h2 : cy - 2 * ((σ - t) / 2) * (cy / σ) = cy * t / σ := by
    field_simp
    ring
  have h3 : cz - 2 * ((σ - t) / 2) * (cz / σ) = cz * t / σ := by
    field_simp
    ring
  rw [h1, h2, h3]
  field_simp
  linear_combination (-(t ^ 2)) * hσ2

theorem list_length_pos_of_get? {α : Type} {l : List α} {i : Nat} {a : α}
    (h : l.get? i = some a) : i < l.length := by
  by_contra hge
  push_neg at hge
  rw [List.get?_eq_none.mpr hge] at h
  cases h

/-- C3: for distinct, non-coincident sites, `change_site_distance` moves A
by `+delta` and B by `-delta` along the unit vector towards the nearest
periodic image of B, with `delta = (original_distance - target) / 2`; the
new separation (with respect to that same image) squares to `target ^ 2`,
the midpoint of A and the image of B is unchanged, and both sites keep
their species and properties. -/
theorem change_site_distance_symmetric_move
    (c : CathodeStr) (i j : Nat) (target : ℝ) (A B : PSite)
    (hA : c.sites.get? i = some A) (hB : c.sites.get? j = some B)
    (hij : i ≠ j) (hnz : d2Of c A B ≠ 0) (ht : 0 ≤ target) :
    ∃ res sA sB,
      changeSiteDistance c i j target = some res ∧
      res.get? i = some sA ∧ res.get? j = some sB ∧
      sA.species = A.species ∧ sA.props = A.props ∧
      sB.species = B.species ∧ sB.props = B.props ∧
      moveDistOf c A B target = (origDistOf c A B - target) / 2 ∧
      sA.cart = ⟨some (((c.lattice.cart A.frac).x : ℝ) +
          moveDistOf c A B target * (((connOf c A B).x : ℝ) / normOf c A B)),
        some (((c.lattice.cart A.frac).y : ℝ) +
          moveDistOf c A B target * (((connOf c A B).y : ℝ) / normOf c A B)),
        some (((c.lattice.cart A.frac).z : ℝ) +
          moveDistOf c A B target * (((connOf c A B).z : ℝ) / normOf c A B))⟩ ∧
      sB.cart = ⟨some (((c.lattice.cart B.frac).x : ℝ) -
          moveDistOf c A B target * (((connOf c A B).x : ℝ) / normOf c A B)),
        some (((c.lattice.cart B.frac).y : ℝ) -
          moveDistOf c A B target * (((connOf c A B).y : ℝ) / normOf c A B)),
        some (((c.lattice.cart B.frac).z : ℝ) -
          moveDistOf c A B target * (((connOf c A B).z : ℝ) / normOf c A B))⟩ ∧
      rvecNormSq (rvecSub (rvecAdd sB.cart
          (qv2r ((imageCartOf c A B).sub (c.lattice.cart B.frac)))) sA.cart) =
        some (target ^ 2) ∧
      rvecAdd sA.cart (rvecAdd sB.cart
          (qv2r ((imageCartOf c A B).sub (c.lattice.cart B.frac)))) =
        ⟨some (((c.lattice.cart A.frac).x : ℝ) + ((imageCartOf c A B).x : ℝ)),
         some (((c.lattice.cart A.frac).y : ℝ) + ((imageCartOf c A B).y : ℝ)),
         some (((c.lattice.cart A.frac).z : ℝ) + ((imageCartOf c A B).z : ℝ))⟩ := by
  have hσpos := normOf_pos hnz
  have hσ : normOf c A B ≠ 0 := ne_of_gt hσpos
  have hi : i < c.sites.length := list_length_pos_of_get? hA
  have hj : j < c.sites.length := list_length_pos_of_get? hB
  have hileft : i < (origSiteList c).length := by
    rw [origSiteList, List.length_map]
    exact hi
  have hjleft : j < ((origSiteList c).set i
      ⟨A.species, newACart c A B target, A.props⟩).length := by
    rw [List.length_set, origSiteList, List.length_map]
    exact hj
  have hAcart : newACart c A B target =
      ⟨some (((c.lattice.cart A.frac).x : ℝ) +
          moveDistOf c A B target * (((connOf c A B).x : ℝ) / normOf c A B)),
        some (((c.lattice.cart A.frac).y : ℝ) +
          moveDistOf c A B target * (((connOf c A B).y : ℝ) / normOf c A B)),
        some (((c.lattice.cart A.frac).z : ℝ) +
          moveDistOf c A B target * (((connOf c A B).z : ℝ) / normOf c A B))⟩ := by
    rw [newACart, unitVecOf_x hσ, unitVecOf_y hσ, unitVecOf_z hσ]
    simp [rvAdd, rvMul]
  have hBcart : newBCart c A B target =
      ⟨some (((c.lattice.cart B.frac).x : ℝ) -
          moveDistOf c A B target * (((connOf c A B).x : ℝ) / normOf c A B)),
        some (((c.lattice.cart B.frac).y : ℝ) -
          moveDistOf c A B target * (((connOf c A B).y : ℝ) / normOf c A B)),
        some (((c.lattice.cart B.frac).z : ℝ) -
          moveDistOf c A B target * (((connOf c A B).z : ℝ) / normOf c A B))⟩ := by
    rw [newBCart, unitVecOf_x hσ, unitVecOf_y hσ, unitVecOf_z hσ]
    simp [rvSub, rvMul]
  have hconnx : ((connOf c A B).x : ℝ) =
      ((imageCartOf c A B).x : ℝ) - ((c.lattice.cart A.frac).x : ℝ) := by
    rw [connOf]
    push_cast [QVec.sub]
    ring
  have hconny : ((connOf c A B).y : ℝ) =
      ((imageCartOf c A B).y : ℝ) - ((c.lattice.cart A.frac).y : ℝ) := by
    rw [connOf]
    push_cast [QVec.sub]
    ring
  have hconnz : ((connOf c A B).z : ℝ) =
      ((imageCartOf c A B).z : ℝ) - ((c.lattice.cart A.frac).z : ℝ) := by
    rw [connOf]
    push_cast [QVec.sub]
    ring
  have hm : moveDistOf c A B target = (normOf c A B - target) / 2 := by
    rw [moveDistOf, origDistOf_eq_normOf]
  refine ⟨changeSiteDistanceCore c A B i j target,
    ⟨A.species, newACart c A B target, A.props⟩,
    ⟨B.species, newBCart c A B target, B.props⟩, ?_, ?_, ?_, rfl, rfl, rfl,
    rfl, rfl, hAcart, hBcart, ?_, ?_⟩
  · show (match c.sites.get? i, c.sites.get? j with
      | some A, some B => some (changeSiteDistanceCore c A B i j target)
      | _, _ => none) = _
    rw [hA, hB]
  · show ((((origSiteList c).set i _).set j _).get? i) = _
    rw [list_get?_set_other _ j i _ (Ne.symm hij),
      list_get?_set_self _ i _ hileft]
  · show ((((origSiteList c).set i _).set j _).get? j) = _
    rw [list_get?_set_self _ j _ hjleft]
  · have hσ2 : normOf c A B ^ 2 = ((connOf c A B).x : ℝ) ^ 2 +
        ((connOf c A B).y : ℝ) ^ 2 + ((connOf c A B).z : ℝ) ^ 2 := by
      rw [normOf_sq, QVec.normSq]
      push_cast
      ring
    rw [hconnx, hconny, hconnz] at hσ2
    rw [hAcart, hBcart]
    simp only [rvecAdd, rvecSub, rvecNormSq, rvAdd, rvSub, rvMul, qv2r,
      QVec.sub, Option.some_inj]
    rw [hm]
    push_cast
    rw [hconnx, hconny, hconnz]
    field_simp
    ring_nf
    ring_nf at hσ2
    nlinarith [hσ2, sq_nonneg target, sq_nonneg (normOf c A B)]
  · rw [hAcart, hBcart]
    simp only [rvecAdd, rvAdd, qv2r, QVec.sub, RVec.mk.injEq, Option.some_inj]
    refine ⟨?_, ?_, ?_⟩
    all_goals push_cast
    all_goals ring

/-- C9 amended: for distinct, non-coincident sites, requesting the current
minimum-image distance as the target leaves both sites' coordinates (and
species and properties) exactly unchanged. -/
theorem change_site_distance_identity
    (c : CathodeStr) (i j : Nat) (target : ℝ) (A B : PSite)
    (hA : c.sites.get? i = some A) (hB : c.sites.get? j = some B)
    (hij : i ≠ j) (hnz : d2Of c A B ≠ 0)
    (ht : target = origDistOf c A B) :
    ∃ res,
      changeSiteDistance c i j target = some res ∧
      res.get? i = some ⟨A.species, qv2r (c.lattice.cart A.frac), A.props⟩ ∧
      res.get? j = some ⟨B.species, qv2r (c.lattice.cart B.frac), B.props⟩ := by
  have hσ : normOf c A B ≠ 0 := ne_of_gt (normOf_pos hnz)
  have hi : i < c.sites.length := list_length_pos_of_get? hA
  have hj : j < c.sites.length := list_length_pos_of_get? hB
  have hileft : i < (origSiteList c).length := by
    rw [origSiteList, List.length_map]
    exact hi
  have hm0 : moveDistOf c A B target = 0 := by
    rw [moveDistOf, ht]
    ring
  have hAcart : newACart c A B target = qv2r (c.lattice.cart A.frac) := by
    rw [newACart, unitVecOf_x hσ, unitVecOf_y hσ, unitVecOf_z hσ, hm0]
    simp [rvAdd, rvMul, qv2r]
  have hBcart : newBCart c A B target = qv2r (c.lattice.cart B.frac) := by
    rw [newBCart, unitVecOf_x hσ, unitVecOf_y hσ, unitVecOf_z hσ, hm0]
    simp [rvSub, rvMul, qv2r]
  have hjleft : j < ((origSiteList c).set i
      ⟨A.species, newACart c A B target, A.props⟩).length := by
    rw [List.length_set, origSiteList, List.length_map]
    exact hj
  refine ⟨changeSiteDistanceCore c A B i j target, ?_, ?_, ?_⟩
  · show (match c.sites.get? i, c.sites.get? j with
      | some A, some B => some (changeSiteDistanceCore c A B i j target)
      | _, _ => none) = _
    rw [hA, hB]
  · show ((((origSiteList c).set i _).set j _).get? i) = _
    rw [list_get?_set_other _ j i _ (Ne.symm hij),
      list_get?_set_self _ i _ hileft, hAcart]
  · show ((((origSiteList c).set i _).set j _).get? j) = _
    rw [list_get?_set_self _ j _ hjleft, hBcart]

/-- A cubic cell of edge 4 with an oxygen at the origin and an oxygen a
quarter cell along x: minimum-image distance 1. -/
def exLat : Lattice3 := ⟨⟨4, 0, 0⟩, ⟨0, 4, 0⟩, ⟨0, 0, 4⟩⟩

def exB : PSite := ⟨Elem.O, ⟨1/4, 0, 0⟩, []⟩

def exC3 : CathodeStr := ⟨exLat, [oSite, exB]⟩

theorem exC3_d2 : distSqAndImage exLat ⟨0, 0, 0⟩ ⟨1/4, 0, 0⟩ = (1, (0, 0, 0)) := by
  norm_num [distSqAndImage, jumps, distCand, minCand, Lattice3.cart, QVec.add,
    QVec.sub, QVec.smul, QVec.normSq, jumpVec, exLat]

theorem exC3_d2Of : d2Of exC3 oSite exB = 1 := by
  rw [d2Of, show exC3.lattice = exLat from rfl,
    show oSite.frac = (⟨0, 0, 0⟩ : QVec) from rfl,
    show exB.frac = (⟨1/4, 0, 0⟩ : QVec) from rfl, exC3_d2]

/-- Witness for C9 (amended) on the concrete two-site fixture. -/
theorem change_site_distance_identity_witness :
    ∃ res,
      changeSiteDistance exC3 0 1 (origDistOf exC3 oSite exB) = some res ∧
      res.get? 0 = some ⟨oSite.species, qv2r (exC3.lattice.cart oSite.frac),
        oSite.props⟩ ∧
      res.get? 1 = some ⟨exB.species, qv2r (exC3.lattice.cart exB.frac),
        exB.props⟩ :=
  change_site_distance_identity exC3 0 1 (origDistOf exC3 oSite exB) oSite exB
    rfl rfl (by decide) (by rw [exC3_d2Of]; norm_num) rfl

/-- Witness for C3 on the concrete two-site fixture, with target distance 3. -/
theorem change_site_distance_symmetric_move_witness :
    ∃ res sA sB,
      changeSiteDistance exC3 0 1 3 = some res ∧
      res.get? 0 = some sA ∧ res.get? 1 = some sB ∧
      sA.species = oSite.species ∧ sA.props = oSite.props ∧
      sB.species = exB.species ∧ sB.props = exB.props ∧
      moveDistOf exC3 oSite exB 3 = (origDistOf exC3 oSite exB - 3) / 2 ∧
      sA.cart = ⟨some (((exC3.lattice.cart oSite.frac).x : ℝ) +
          moveDistOf exC3 oSite exB 3 *
            (((connOf exC3 oSite exB).x : ℝ) / normOf exC3 oSite exB)),
        some (((exC3.lattice.cart oSite.frac).y : ℝ) +
          moveDistOf exC3 oSite exB 3 *
            (((connOf exC3 oSite exB).y : ℝ) / normOf exC3 oSite exB)),
        some (((exC3.lattice.cart oSite.frac).z : ℝ) +
          moveDistOf exC3 oSite exB 3 *
            (((connOf exC3 oSite exB).z : ℝ) / normOf exC3 oSite exB))⟩ ∧
      sB.cart = ⟨some (((exC3.lattice.cart exB.frac).x : ℝ) -
          moveDistOf exC3 oSite exB 3 *
            (((connOf exC3 oSite exB).x : ℝ) / normOf exC3 oSite exB)),
        some (((exC3.lattice.cart exB.frac).y : ℝ) -
          moveDistOf exC3 oSite exB 3 *
            (((connOf exC3 oSite exB).y : ℝ) / normOf exC3 oSite exB)),
        some (((exC3.lattice.cart exB.frac).z : ℝ) -
          moveDistOf exC3 oSite exB 3 *
            (((connOf exC3 oSite exB).z : ℝ) / normOf exC3 oSite exB))⟩ ∧
      rvecNormSq (rvecSub (rvecAdd sB.cart
          (qv2r ((imageCartOf exC3 oSite exB).sub
            (exC3.lattice.cart exB.frac)))) sA.cart) = some ((3 : ℝ) ^ 2) ∧
      rvecAdd sA.cart (rvecAdd sB.cart
          (qv2r ((imageCartOf exC3 oSite exB).sub
            (exC3.lattice.cart exB.frac)))) =
        ⟨some (((exC3.lattice.cart oSite.frac).x : ℝ) +
            ((imageCartOf exC3 oSite exB).x : ℝ)),
         some (((exC3.lattice.cart oSite.frac).y : ℝ) +
            ((imageCartOf exC3 oSite exB).y : ℝ)),
         some (((exC3.lattice.cart oSite.frac).z : ℝ) +
            ((imageCartOf exC3 oSite exB).z : ℝ))⟩ :=
  change_site_distance_symmetric_move exC3 0 1 3 oSite exB rfl rfl
    (by decide) (by rw [exC3_d2Of]; norm_num) (by norm_num)
